import Mathlib

/-!
Shallow embedding of the `base16ct` constant-time Base16 (hex) codec,
from `src/base16ct/src/lib.rs`.

Bytes are modelled as `Nat` (with `< 256` hypotheses where the Rust type
`u8` matters); the Rust `u16` arithmetic inside the decode loop is
modelled with explicit `% 65536`.  The buffer-mutating `decode_inner`
is modelled as a function returning both the `Result` value and the
final contents of the destination buffer, so that frame properties can
be stated.

The variant modules `lower`, `upper` and `mixed` (their
`decode_nibble` / `encode_nibble` functions and the generic encode
routine) are declared in `lib.rs` but their files are not part of the
sources at hand; they are modelled from the spec, as marked on each
definition.
-/

namespace Base16ct

/-- Error type (`lib.rs` lines 112-120): `InvalidEncoding` for an
invalid Base16 encoding, `InvalidLength` for an insufficient output
buffer length or odd input length. -/
inductive Error where
  | InvalidEncoding : Error
  | InvalidLength : Error
deriving DecidableEq

/-- `decoded_len` (`lib.rs` lines 74-82): computes the decoded length of a
hex-encoded input; `bytes.len() & 1 == 0` guards the even case. -/
def decoded_len (bytes : List Nat) : Except Error Nat :=
  if bytes.length &&& 1 = 0 then Except.ok (bytes.length / 2)
  else Except.error Error.InvalidLength

/-- `encoded_len` (`lib.rs` lines 84-88): length of the Base16 produced by
encoding the given bytes. -/
def encoded_len (bytes : List Nat) : Nat :=
  bytes.length * 2

/-- One iteration of the decode loop of `decode_inner` (`lib.rs` line 101):
`(decode_nibble(src[0]) << 4) | decode_nibble(src[1])` in `u16`
arithmetic (the shift wraps modulo 2^16). -/
def decode_byte (nib : Nat → Nat) (hi lo : Nat) : Nat :=
  (((nib hi % 65536) * 16) % 65536) ||| (nib lo % 65536)

/-- The loop of `decode_inner` (`lib.rs` lines 99-104) over
`src.chunks_exact(2)`: returns the list of bytes written to the
destination (`byte as u8`) and the error accumulator
(`err |= byte >> 8` folded over all pairs). -/
def decode_pairs (nib : Nat → Nat) : List Nat → List Nat × Nat
  | hi :: lo :: rest =>
    let b := decode_byte nib hi lo
    let r := decode_pairs nib rest
    (b % 256 :: r.1, (b / 256) ||| r.2)
  | _ => ([], 0)

/-- `decode_inner` (`lib.rs` lines 90-110).  The first component is the
returned `Result` (on success, the narrowed destination slice
`&dst[..n]`); the second component is the final contents of the whole
destination buffer `dst`. -/
def decode_inner (src dst : List Nat) (nib : Nat → Nat) :
    Except Error (List Nat) × List Nat :=
  match decoded_len src with
  | Except.error e => (Except.error e, dst)
  | Except.ok n =>
    if n ≤ dst.length then
      let r := decode_pairs nib src
      let buf := r.1 ++ dst.drop n
      if r.2 = 0 then (Except.ok r.1, buf)
      else (Except.error Error.InvalidEncoding, buf)
    else (Except.error Error.InvalidLength, dst)

namespace lower

/-- Modelled from the spec: the `lower` module is declared in `lib.rs`
(line 68) but its file is not among the sources.  Spec section 4.3: the
lower variant's `decode_nibble` accepts the digits `0-9` (ASCII
48-57) and `a-f` (ASCII 97-102), returning the nibble value in the low
bits, and rejects every other byte by setting a non-zero error marker
in the bits above position 7. -/
def decode_nibble (c : Nat) : Nat :=
  if 48 ≤ c ∧ c ≤ 57 then c - 48
  else if 97 ≤ c ∧ c ≤ 102 then c - 87
  else 256

/-- Modelled from the spec: spec section 4.3, `encode_nibble` for the
lower variant maps `0-9` to ASCII `'0'..'9'` and `10-15` to
`'a'..'f'`. -/
def encode_nibble (n : Nat) : Nat :=
  if n < 10 then n + 48 else n + 87

/-- `lower::decode`: the engine instantiated with the lower-variant
nibble decoder. -/
def decode (src dst : List Nat) : Except Error (List Nat) × List Nat :=
  decode_inner src dst decode_nibble

end lower

namespace upper

/-- Modelled from the spec: the `upper` module is declared in `lib.rs`
(line 72) but its file is not among the sources.  Spec section 4.3: the
upper variant's `decode_nibble` accepts `0-9` (ASCII 48-57) and `A-F`
(ASCII 65-70), rejecting everything else via the high error marker. -/
def decode_nibble (c : Nat) : Nat :=
  if 48 ≤ c ∧ c ≤ 57 then c - 48
  else if 65 ≤ c ∧ c ≤ 70 then c - 55
  else 256

/-- Modelled from the spec: spec section 4.3, `encode_nibble` for the
upper variant maps `0-9` to ASCII `'0'..'9'` and `10-15` to
`'A'..'F'`. -/
def encode_nibble (n : Nat) : Nat :=
  if n < 10 then n + 48 else n + 55

/-- `upper::decode`: the engine instantiated with the upper-variant
nibble decoder. -/
def decode (src dst : List Nat) : Except Error (List Nat) × List Nat :=
  decode_inner src dst decode_nibble

end upper

namespace mixed

/-- Modelled from the spec: the `mixed` module is declared in `lib.rs`
(line 70) but its file is not among the sources.  Spec section 4.3: the
mixed variant's `decode_nibble` accepts `0-9`, `a-f` and `A-F`,
rejecting everything else via the high error marker; mixed is
decode-only. -/
def decode_nibble (c : Nat) : Nat :=
  if 48 ≤ c ∧ c ≤ 57 then c - 48
  else if 97 ≤ c ∧ c ≤ 102 then c - 87
  else if 65 ≤ c ∧ c ≤ 70 then c - 55
  else 256

/-- `mixed::decode`: the engine instantiated with the mixed-variant
nibble decoder. -/
def decode (src dst : List Nat) : Except Error (List Nat) × List Nat :=
  decode_inner src dst decode_nibble

end mixed

/-- Modelled from the spec: the generic encode routine lives in the
variant modules, absent from the sources.  Spec sections 4.3 and 6:
encoding emits, for each input byte, the high nibble's digit followed
by the low nibble's digit. -/
def encode_bytes (enc : Nat → Nat) : List Nat → List Nat
  | [] => []
  | b :: rest => enc (b / 16) :: enc (b % 16) :: encode_bytes enc rest

/-- Modelled from the spec: spec sections 6 and 8 — `encode` writes
`encoded_len(src)` bytes into the destination buffer, failing with
`InvalidLength` when the buffer is too small, and returns the written
slice.  Returns the `Result` and the final buffer contents. -/
def encode_inner (src dst : List Nat) (enc : Nat → Nat) :
    Except Error (List Nat) × List Nat :=
  if encoded_len src ≤ dst.length then
    let out := encode_bytes enc src
    (Except.ok out, out ++ dst.drop (encoded_len src))
  else (Except.error Error.InvalidLength, dst)

/-- Legal digits of the lower variant: `0-9` and `a-f` (spec sections
4.3 and 7). -/
def lowerDigit (c : Nat) : Prop :=
  (48 ≤ c ∧ c ≤ 57) ∨ (97 ≤ c ∧ c ≤ 102)

/-- Legal digits of the upper variant: `0-9` and `A-F`. -/
def upperDigit (c : Nat) : Prop :=
  (48 ≤ c ∧ c ≤ 57) ∨ (65 ≤ c ∧ c ≤ 70)

/-- Legal digits of the mixed variant: `0-9`, `a-f` and `A-F`. -/
def mixedDigit (c : Nat) : Prop :=
  (48 ≤ c ∧ c ≤ 57) ∨ (97 ≤ c ∧ c ≤ 102) ∨ (65 ≤ c ∧ c ≤ 70)

/-- Kinds of operations executed by the codec, used to state the
constant-time property as data-independence of the operation trace. -/
inductive OpKind where
  | lenCheck : OpKind
  | nibbleCall : OpKind
  | shiftLeft4 : OpKind
  | bitOr : OpKind
  | shiftRight8 : OpKind
  | orAccum : OpKind
  | storeByte : OpKind
  | shiftRight4 : OpKind
  | maskLow4 : OpKind
deriving DecidableEq

/-- Modelled from the spec: spec sections 4.3 and 8 — `decode_nibble`
computes via a fixed sequence of arithmetic range tests with no
value-dependent branch, so the operations it executes are a fixed
constant list, here abstracted as a single call marker. -/
def nibble_ops : List OpKind := [OpKind.nibbleCall]

/-- Operations of one iteration of the decode loop (`lib.rs` lines
101-103): two nibble decodes, the shift/or combining them, the error
accumulation `err |= byte >> 8`, and the store `*dst = byte as u8`. -/
def pair_ops : List OpKind :=
  nibble_ops ++ [OpKind.shiftLeft4] ++ nibble_ops ++
    [OpKind.bitOr, OpKind.shiftRight8, OpKind.orAccum, OpKind.storeByte]

/-- Operation trace of the loop of `decode_inner` over
`src.chunks_exact(2)`: one `pair_ops` block per pair, with no early
exit. -/
def loop_ops : List Nat → List OpKind
  | _ :: _ :: rest => pair_ops ++ loop_ops rest
  | _ => []

/-- Operation trace of `decode_inner` (`lib.rs` lines 90-110): the
up-front length check, then — when the length check passes — the full
loop. -/
def decode_inner_ops (src dst : List Nat) : List OpKind :=
  match decoded_len src with
  | Except.error _ => [OpKind.lenCheck]
  | Except.ok n =>
    if n ≤ dst.length then OpKind.lenCheck :: loop_ops src
    else [OpKind.lenCheck]

/-- Modelled from the spec: spec sections 4.3 and 8 — `encode_nibble`
likewise computes via a fixed branchless arithmetic sequence, so the
operations it executes are a fixed constant list, independent of the
nibble value, here abstracted as a single call marker. -/
def encode_nibble_ops : List OpKind := [OpKind.nibbleCall]

/-- Modelled from the spec: operations of one iteration of the encode
loop — for each input byte, extract and encode the high nibble, then
extract and encode the low nibble, storing each digit. -/
def encode_pair_ops : List OpKind :=
  [OpKind.shiftRight4] ++ encode_nibble_ops ++ [OpKind.storeByte] ++
    [OpKind.maskLow4] ++ encode_nibble_ops ++ [OpKind.storeByte]

/-- Operation trace of the encode loop over the input bytes: one
`encode_pair_ops` block per byte, with no early exit. -/
def encode_loop_ops : List Nat → List OpKind
  | _ :: rest => encode_pair_ops ++ encode_loop_ops rest
  | _ => []

/-- Operation trace of `encode_inner`: the up-front length check, then —
when the destination buffer suffices — the full encode loop. -/
def encode_inner_ops (src dst : List Nat) : List OpKind :=
  if encoded_len src ≤ dst.length then OpKind.lenCheck :: encode_loop_ops src
  else [OpKind.lenCheck]

instance (c : Nat) : Decidable (lowerDigit c) := by
  unfold lowerDigit; infer_instance

instance (c : Nat) : Decidable (upperDigit c) := by
  unfold upperDigit; infer_instance

instance (c : Nat) : Decidable (mixedDigit c) := by
  unfold mixedDigit; infer_instance

end Base16ct

namespace Base16ct

theorem or_lt_two_pow_iff {x y n : Nat} : x ||| y < 2 ^ n ↔ x < 2 ^ n ∧ y < 2 ^ n := by
  constructor
  · intro h
    constructor
    · by_contra hx
      obtain ⟨i, hi, hbit⟩ := Nat.ge_two_pow_implies_high_bit_true (Nat.le_of_not_lt hx)
      have hb : (x ||| y).testBit i = true := by
        simp [Nat.testBit_or, hbit]
      have h1 := Nat.testBit_implies_ge hb
      have h2 : 2 ^ n ≤ 2 ^ i := Nat.pow_le_pow_right (by omega) hi
      omega
    · by_contra hy
      obtain ⟨i, hi, hbit⟩ := Nat.ge_two_pow_implies_high_bit_true (Nat.le_of_not_lt hy)
      have hb : (x ||| y).testBit i = true := by
        simp [Nat.testBit_or, hbit]
      have h1 := Nat.testBit_implies_ge hb
      have h2 : 2 ^ n ≤ 2 ^ i := Nat.pow_le_pow_right (by omega) hi
      omega
  · intro h
    exact Nat.or_lt_two_pow h.1 h.2

theorem or_lt_256_iff {x y : Nat} : x ||| y < 256 ↔ x < 256 ∧ y < 256 := by
  have h := @or_lt_two_pow_iff x y 8
  norm_num at h
  exact h

theorem or_eq_zero_iff {x y : Nat} : x ||| y = 0 ↔ x = 0 ∧ y = 0 := by
  have h := @or_lt_two_pow_iff x y 0
  simpa [Nat.lt_one_iff] using h

theorem decoded_len_spec (bytes : List Nat) :
    decoded_len bytes =
      if bytes.length % 2 = 0 then Except.ok (bytes.length / 2)
      else Except.error Error.InvalidLength := by
  unfold decoded_len
  rw [Nat.and_one_is_mod]

theorem decode_pairs_nil (nib : Nat → Nat) : decode_pairs nib [] = ([], 0) := rfl

theorem decode_pairs_cons (nib : Nat → Nat) (hi lo : Nat) (rest : List Nat) :
    decode_pairs nib (hi :: lo :: rest) =
      ((decode_byte nib hi lo) % 256 :: (decode_pairs nib rest).1,
       ((decode_byte nib hi lo) / 256) ||| (decode_pairs nib rest).2) := rfl

theorem decode_pairs_length (nib : Nat → Nat) :
    ∀ src : List Nat, (decode_pairs nib src).1.length = src.length / 2
  | [] => by norm_num [decode_pairs]
  | [_] => by norm_num [decode_pairs]
  | _ :: _ :: rest => by
    rw [decode_pairs_cons]
    simp only [List.length_cons]
    rw [decode_pairs_length nib rest]
    omega

theorem decode_byte_lt_iff {nib : Nat → Nat} {good : Nat → Prop}
    (hn : ∀ c, (good c → nib c < 16) ∧ (¬ good c → nib c = 256)) (hi lo : Nat) :
    (decode_byte nib hi lo < 256 ↔ good hi ∧ good lo) := by
  unfold decode_byte
  by_cases hhi : good hi
  · by_cases hlo : good lo
    · have h1 : nib hi < 16 := (hn hi).1 hhi
      have h2 : nib lo < 16 := (hn lo).1 hlo
      rw [Nat.mod_eq_of_lt (show nib hi < 65536 by omega),
        Nat.mod_eq_of_lt (show nib lo < 65536 by omega),
        Nat.mod_eq_of_lt (show nib hi * 16 < 65536 by omega)]
      exact iff_of_true (or_lt_256_iff.mpr ⟨by omega, by omega⟩) ⟨hhi, hlo⟩
    · have h2 : nib lo = 256 := (hn lo).2 hlo
      rw [h2]
      refine iff_of_false (fun hcon => ?_) (fun h => hlo h.2)
      have h3 := (or_lt_256_iff.mp hcon).2
      norm_num at h3
  · have h1 : nib hi = 256 := (hn hi).2 hhi
    rw [h1]
    refine iff_of_false (fun hcon => ?_) (fun h => hhi h.1)
    have h3 := (or_lt_256_iff.mp hcon).1
    norm_num at h3

theorem lower_nib_spec (c : Nat) :
    (lowerDigit c → lower.decode_nibble c < 16) ∧
      (¬ lowerDigit c → lower.decode_nibble c = 256) := by
  unfold lowerDigit lower.decode_nibble
  constructor <;> intro h <;> split_ifs with h1 h2 <;> omega

theorem upper_nib_spec (c : Nat) :
    (upperDigit c → upper.decode_nibble c < 16) ∧
      (¬ upperDigit c → upper.decode_nibble c = 256) := by
  unfold upperDigit upper.decode_nibble
  constructor <;> intro h <;> split_ifs with h1 h2 <;> omega

theorem mixed_nib_spec (c : Nat) :
    (mixedDigit c → mixed.decode_nibble c < 16) ∧
      (¬ mixedDigit c → mixed.decode_nibble c = 256) := by
  unfold mixedDigit mixed.decode_nibble
  constructor <;> intro h <;> split_ifs with h1 h2 h3 <;> omega

theorem decode_pairs_err_iff {nib : Nat → Nat} {good : Nat → Prop}
    (hn : ∀ c, (good c → nib c < 16) ∧ (¬ good c → nib c = 256)) :
    ∀ src : List Nat, src.length % 2 = 0 →
      ((decode_pairs nib src).2 = 0 ↔ ∀ c ∈ src, good c)
  | [], _ => by simp [decode_pairs_nil]
  | [c], h => by simp at h
  | hi :: lo :: rest, h => by
    have hr : rest.length % 2 = 0 := by
      simp only [List.length_cons] at h
      omega
    rw [decode_pairs_cons]
    simp only []
    rw [or_eq_zero_iff,
      Nat.div_eq_zero_iff (show (0:Nat) < 256 by norm_num),
      decode_byte_lt_iff hn hi lo,
      decode_pairs_err_iff hn rest hr]
    simp only [List.mem_cons]
    constructor
    · rintro ⟨⟨h1, h2⟩, h3⟩ c hc
      rcases hc with rfl | rfl | hc
      · exact h1
      · exact h2
      · exact h3 c hc
    · intro h4
      exact ⟨⟨h4 hi (Or.inl rfl), h4 lo (Or.inr (Or.inl rfl))⟩,
        fun c hc => h4 c (Or.inr (Or.inr hc))⟩

theorem decode_inner_eq_of_le (src dst : List Nat) (nib : Nat → Nat)
    (he : src.length % 2 = 0) (hd : src.length / 2 ≤ dst.length) :
    decode_inner src dst nib =
      ((if (decode_pairs nib src).2 = 0 then Except.ok (decode_pairs nib src).1
        else Except.error Error.InvalidEncoding),
       (decode_pairs nib src).1 ++ dst.drop (src.length / 2)) := by
  unfold decode_inner
  rw [decoded_len_spec, if_pos he]
  dsimp only []
  rw [if_pos hd]
  by_cases hz : (decode_pairs nib src).2 = 0
  · rw [if_pos hz, if_pos hz]
  · rw [if_neg hz, if_neg hz]

end Base16ct

namespace Base16ct

set_option maxRecDepth 100000

theorem encode_bytes_length (enc : Nat → Nat) :
    ∀ b : List Nat, (encode_bytes enc b).length = 2 * b.length
  | [] => rfl
  | _ :: rest => by
    simp only [encode_bytes, List.length_cons]
    rw [encode_bytes_length enc rest]
    omega

theorem rt_lower_lower : ∀ x : Fin 256,
    decode_byte lower.decode_nibble
      (lower.encode_nibble (x.val / 16)) (lower.encode_nibble (x.val % 16)) = x.val := by
  decide

theorem rt_upper_upper : ∀ x : Fin 256,
    decode_byte upper.decode_nibble
      (upper.encode_nibble (x.val / 16)) (upper.encode_nibble (x.val % 16)) = x.val := by
  decide

theorem rt_mixed_lower : ∀ x : Fin 256,
    decode_byte mixed.decode_nibble
      (lower.encode_nibble (x.val / 16)) (lower.encode_nibble (x.val % 16)) = x.val := by
  decide

theorem rt_mixed_upper : ∀ x : Fin 256,
    decode_byte mixed.decode_nibble
      (upper.encode_nibble (x.val / 16)) (upper.encode_nibble (x.val % 16)) = x.val := by
  decide

theorem decode_pairs_encode {nib enc : Nat → Nat}
    (hre : ∀ x : Fin 256, decode_byte nib (enc (x.val / 16)) (enc (x.val % 16)) = x.val) :
    ∀ b : List Nat, (∀ x ∈ b, x < 256) →
      decode_pairs nib (encode_bytes enc b) = (b, 0)
  | [], _ => rfl
  | x :: rest, hb => by
    have hx : x < 256 := hb x (List.mem_cons_self x rest)
    have hrest : ∀ y ∈ rest, y < 256 := fun y hy => hb y (List.mem_cons_of_mem x hy)
    have hbyte : decode_byte nib (enc (x / 16)) (enc (x % 16)) = x := hre ⟨x, hx⟩
    simp only [encode_bytes]
    rw [decode_pairs_cons, decode_pairs_encode hre rest hrest, hbyte,
      Nat.mod_eq_of_lt hx, Nat.div_eq_of_lt hx]
    simp

theorem loop_ops_eq : ∀ src : List Nat,
    loop_ops src = (List.replicate (src.length / 2) pair_ops).flatten
  | [] => rfl
  | [_] => by norm_num [loop_ops]
  | _ :: _ :: rest => by
    simp only [loop_ops, List.length_cons]
    rw [loop_ops_eq rest]
    have h2 : (rest.length + 1 + 1) / 2 = rest.length / 2 + 1 := by omega
    rw [h2, List.replicate_succ, List.flatten_cons]

end Base16ct

namespace Base16ct

set_option maxRecDepth 100000

theorem decode_inner_odd (src dst : List Nat) (nib : Nat → Nat)
    (he : ¬ src.length % 2 = 0) :
    decode_inner src dst nib = (Except.error Error.InvalidLength, dst) := by
  unfold decode_inner
  rw [decoded_len_spec, if_neg he]

theorem decode_inner_short (src dst : List Nat) (nib : Nat → Nat)
    (he : src.length % 2 = 0) (hd : ¬ src.length / 2 ≤ dst.length) :
    decode_inner src dst nib = (Except.error Error.InvalidLength, dst) := by
  unfold decode_inner
  rw [decoded_len_spec, if_pos he]
  dsimp only []
  rw [if_neg hd]

theorem decode_ok_length (src dst : List Nat) (nib : Nat → Nat) (out : List Nat)
    (hout : (decode_inner src dst nib).1 = Except.ok out) :
    out.length = src.length / 2 := by
  by_cases he : src.length % 2 = 0
  · by_cases hd : src.length / 2 ≤ dst.length
    · rw [decode_inner_eq_of_le src dst nib he hd] at hout
      dsimp only [] at hout
      by_cases hz : (decode_pairs nib src).2 = 0
      · rw [if_pos hz] at hout
        injection hout with h1
        rw [← h1, decode_pairs_length]
      · rw [if_neg hz] at hout
        exact absurd hout (by simp)
    · rw [decode_inner_short src dst nib he hd] at hout
      exact absurd hout (by simp)
  · rw [decode_inner_odd src dst nib he] at hout
    exact absurd hout (by simp)

theorem decode_variant_iff {nib : Nat → Nat} {good : Nat → Prop}
    (hn : ∀ c, (good c → nib c < 16) ∧ (¬ good c → nib c = 256))
    (src dst : List Nat) (he : src.length % 2 = 0) (hd : src.length / 2 ≤ dst.length) :
    ((decode_inner src dst nib).1 = Except.error Error.InvalidEncoding ↔
      ∃ c ∈ src, ¬ good c) ∧
    ((∃ out, (decode_inner src dst nib).1 = Except.ok out) ↔ ∀ c ∈ src, good c) := by
  rw [decode_inner_eq_of_le src dst nib he hd]
  dsimp only []
  have herr := decode_pairs_err_iff hn src he
  by_cases hz : (decode_pairs nib src).2 = 0
  · have hall : ∀ c ∈ src, good c := herr.mp hz
    rw [if_pos hz]
    constructor
    · constructor
      · intro hcon
        exact absurd hcon (by simp)
      · rintro ⟨c, hc, hbad⟩
        exact absurd (hall c hc) hbad
    · exact ⟨fun _ => hall, fun _ => ⟨_, rfl⟩⟩
  · have hnall : ¬ ∀ c ∈ src, good c := fun hcon => hz (herr.mpr hcon)
    rw [if_neg hz]
    constructor
    · constructor
      · intro _
        push_neg at hnall
        exact hnall
      · intro _
        rfl
    · constructor
      · rintro ⟨out, hout⟩
        exact absurd hout (by simp)
      · intro hcon
        exact absurd hcon hnall

end Base16ct

namespace Base16ct

set_option maxRecDepth 100000

/-- Claim C3: for every byte sequence `s`, `decoded_len s` returns
`Ok (len s / 2)` when `len s` is even, and the `InvalidLength` error
when `len s` is odd. -/
theorem decoded_len_even_odd (s : List Nat) :
    (s.length % 2 = 0 → decoded_len s = Except.ok (s.length / 2)) ∧
    (s.length % 2 = 1 → decoded_len s = Except.error Error.InvalidLength) := by
  constructor
  · intro h
    rw [decoded_len_spec, if_pos h]
  · intro h
    rw [decoded_len_spec, if_neg (by omega)]

/-- Witness for C3 at a concrete even input and a concrete odd input. -/
theorem decoded_len_even_odd_witness :
    decoded_len [97, 98] = Except.ok 1 ∧
      decoded_len [97, 98, 99] = Except.error Error.InvalidLength := by
  constructor
  · have h := (decoded_len_even_odd [97, 98]).1 (by decide)
    simpa using h
  · exact (decoded_len_even_odd [97, 98, 99]).2 (by decide)

/-- Claim C6: `encoded_len b` equals `2 * len b` for every byte sequence
`b`; the function is total, with no error result in its type. -/
theorem encoded_len_total (b : List Nat) : encoded_len b = 2 * b.length := by
  unfold encoded_len
  omega

/-- Claim C10: decoding the empty input succeeds with every destination
buffer (including a zero-length one), returning the empty slice and
leaving the buffer untouched. -/
theorem decode_empty_ok (dst : List Nat) (nib : Nat → Nat) :
    decode_inner [] dst nib = (Except.ok [], dst) := by
  have h := decode_inner_eq_of_le [] dst nib (by simp) (by simp)
  rw [h]
  simp [decode_pairs_nil]

/-- Claim C8: `decode_inner` fails with `InvalidLength` exactly when the
input length is odd or the destination buffer is shorter than
`len src / 2` — the single up-front length check — and in that case the
destination buffer is left completely unchanged. -/
theorem invalid_length_single_check (src dst : List Nat) (nib : Nat → Nat) :
    ((decode_inner src dst nib).1 = Except.error Error.InvalidLength ↔
      (src.length % 2 = 1 ∨ dst.length < src.length / 2)) ∧
    ((decode_inner src dst nib).1 = Except.error Error.InvalidLength →
      (decode_inner src dst nib).2 = dst) := by
  by_cases he : src.length % 2 = 0
  · by_cases hd : src.length / 2 ≤ dst.length
    · rw [decode_inner_eq_of_le src dst nib he hd]
      dsimp only []
      constructor
      · constructor
        · intro hcon
          by_cases hz : (decode_pairs nib src).2 = 0
          · rw [if_pos hz] at hcon
            exact absurd hcon (by simp)
          · rw [if_neg hz] at hcon
            exact absurd hcon (by simp)
        · intro hcon
          exfalso
          omega
      · intro hcon
        exfalso
        by_cases hz : (decode_pairs nib src).2 = 0
        · rw [if_pos hz] at hcon
          exact absurd hcon (by simp)
        · rw [if_neg hz] at hcon
          exact absurd hcon (by simp)
    · rw [decode_inner_short src dst nib he hd]
      exact ⟨⟨fun _ => Or.inr (by omega), fun _ => rfl⟩, fun _ => rfl⟩
  · rw [decode_inner_odd src dst nib he]
    exact ⟨⟨fun _ => Or.inl (by omega), fun _ => rfl⟩, fun _ => rfl⟩

/-- Claim C2: with even input length and a sufficient destination buffer,
decode fails with `InvalidEncoding` iff at least one input byte is not a
legal digit of the active variant, and succeeds iff every input byte is
legal — for each of the three variants. -/
theorem decode_invalid_encoding_iff (src dst : List Nat)
    (he : src.length % 2 = 0) (hd : src.length / 2 ≤ dst.length) :
    (((lower.decode src dst).1 = Except.error Error.InvalidEncoding ↔
        ∃ c ∈ src, ¬ lowerDigit c) ∧
      ((∃ out, (lower.decode src dst).1 = Except.ok out) ↔
        ∀ c ∈ src, lowerDigit c)) ∧
    (((upper.decode src dst).1 = Except.error Error.InvalidEncoding ↔
        ∃ c ∈ src, ¬ upperDigit c) ∧
      ((∃ out, (upper.decode src dst).1 = Except.ok out) ↔
        ∀ c ∈ src, upperDigit c)) ∧
    (((mixed.decode src dst).1 = Except.error Error.InvalidEncoding ↔
        ∃ c ∈ src, ¬ mixedDigit c) ∧
      ((∃ out, (mixed.decode src dst).1 = Except.ok out) ↔
        ∀ c ∈ src, mixedDigit c)) :=
  ⟨decode_variant_iff lower_nib_spec src dst he hd,
    decode_variant_iff upper_nib_spec src dst he hd,
    decode_variant_iff mixed_nib_spec src dst he hd⟩

/-- Witness for C2: `lower.decode "0g"` fails with `InvalidEncoding`
because `'g'` is not a lower hex digit. -/
theorem decode_invalid_encoding_iff_witness :
    (lower.decode [48, 103] [0]).1 = Except.error Error.InvalidEncoding := by
  have h := decode_invalid_encoding_iff [48, 103] [0] (by decide) (by decide)
  exact h.1.1.mpr ⟨103, by decide, by decide⟩

end Base16ct

namespace Base16ct

set_option maxRecDepth 100000

/-- Claim C4: for even-length input with `n = len src / 2`, decode into a
buffer of exactly `n` bytes — and likewise into any buffer longer than
`n` bytes — can succeed (and does, for legal digits), and on success the
returned slice has exactly `n` bytes, never including trailing buffer
capacity; into a buffer one byte short it fails with `InvalidLength`. -/
theorem decode_buffer_sizing (src dst : List Nat) (nib : Nat → Nat)
    (he : src.length % 2 = 0) :
    ((∀ c ∈ src, lowerDigit c) → src.length / 2 ≤ dst.length →
      ∃ out, (lower.decode src dst).1 = Except.ok out ∧
        out.length = src.length / 2) ∧
    (dst.length + 1 = src.length / 2 →
      (decode_inner src dst nib).1 = Except.error Error.InvalidLength) ∧
    (∀ out, (decode_inner src dst nib).1 = Except.ok out →
      out.length = src.length / 2) := by
  refine ⟨fun hgood hlen => ?_, fun hshort => ?_,
    fun out hout => decode_ok_length src dst nib out hout⟩
  · obtain ⟨out, hout⟩ :=
      (decode_variant_iff lower_nib_spec src dst he hlen).2.mpr hgood
    exact ⟨out, hout, decode_ok_length src dst lower.decode_nibble out hout⟩
  · rw [decode_inner_short src dst nib he (by omega)]

/-- Witness for C4: decoding `"ab"` into a buffer of exactly one byte
succeeds with a one-byte slice, into an oversized three-byte buffer also
succeeds with a one-byte slice, and into an empty buffer fails with
`InvalidLength`. -/
theorem decode_buffer_sizing_witness :
    (∃ out, (lower.decode [97, 98] [0]).1 = Except.ok out ∧ out.length = 1) ∧
      (∃ out, (lower.decode [97, 98] [0, 5, 6]).1 = Except.ok out ∧
        out.length = 1) ∧
      (decode_inner [97, 98] [] lower.decode_nibble).1 =
        Except.error Error.InvalidLength := by
  refine ⟨?_, ?_, ?_⟩
  · obtain ⟨out, h1, h2⟩ :=
      (decode_buffer_sizing [97, 98] [0] lower.decode_nibble (by decide)).1
        (by decide) (by decide)
    exact ⟨out, h1, by simpa using h2⟩
  · obtain ⟨out, h1, h2⟩ :=
      (decode_buffer_sizing [97, 98] [0, 5, 6] lower.decode_nibble (by decide)).1
        (by decide) (by decide)
    exact ⟨out, h1, by simpa using h2⟩
  · exact (decode_buffer_sizing [97, 98] [] lower.decode_nibble (by decide)).2.1
      (by decide)

/-- Claim C7: with even input and a sufficient destination buffer, decode
overwrites the first `n = len src / 2` destination bytes with the bytes
computed by the loop — regardless of whether it returns `Ok` or
`InvalidEncoding`, and independently of the buffer's initial contents —
and leaves every byte from index `n` on unchanged (and the buffer length
unchanged). -/
theorem decode_frame (src dst : List Nat) (nib : Nat → Nat)
    (he : src.length % 2 = 0) (hd : src.length / 2 ≤ dst.length) :
    ((decode_inner src dst nib).2).take (src.length / 2) =
      (decode_pairs nib src).1 ∧
    ((decode_inner src dst nib).2).drop (src.length / 2) =
      dst.drop (src.length / 2) ∧
    ((decode_inner src dst nib).2).length = dst.length := by
  rw [decode_inner_eq_of_le src dst nib he hd]
  dsimp only []
  refine ⟨List.take_left' (decode_pairs_length nib src),
    List.drop_left' (decode_pairs_length nib src), ?_⟩
  rw [List.length_append, decode_pairs_length nib src, List.length_drop]
  omega

/-- Witness for C7: decoding the invalid input `"gg"` into `[9, 9, 9]`
still leaves the bytes past index 1 unchanged while the first byte was
overwritten by the loop. -/
theorem decode_frame_witness :
    (decode_inner [103, 103] [9, 9, 9] lower.decode_nibble).2.drop 1 = [9, 9] ∧
      (decode_inner [103, 103] [9, 9, 9] lower.decode_nibble).2.take 1 =
        (decode_pairs lower.decode_nibble [103, 103]).1 := by
  have h := decode_frame [103, 103] [9, 9, 9] lower.decode_nibble
    (by decide) (by decide)
  constructor
  · have h2 := h.2.1
    simpa using h2
  · have h1 := h.1
    simpa using h1

/-- Claim C5: `lower.decode "ABCD"` and `upper.decode "abcd"` fail with
`InvalidEncoding`, while `mixed.decode` accepts `"aBcD"`, `"ABCD"` and
`"abcd"`, all returning the same bytes `[0xAB, 0xCD]`, for every
destination buffer with at least 2 bytes. -/
theorem decode_case_vectors (dst : List Nat) (hd : 2 ≤ dst.length) :
    (lower.decode [65, 66, 67, 68] dst).1 = Except.error Error.InvalidEncoding ∧
    (upper.decode [97, 98, 99, 100] dst).1 = Except.error Error.InvalidEncoding ∧
    (mixed.decode [97, 66, 99, 68] dst).1 = Except.ok [171, 205] ∧
    (mixed.decode [65, 66, 67, 68] dst).1 = Except.ok [171, 205] ∧
    (mixed.decode [97, 98, 99, 100] dst).1 = Except.ok [171, 205] := by
  refine ⟨?_, ?_, ?_, ?_, ?_⟩
  · show (decode_inner [65, 66, 67, 68] dst lower.decode_nibble).1 = _
    rw [decode_inner_eq_of_le [65, 66, 67, 68] dst lower.decode_nibble
      (by decide) (by simpa using hd)]
    rfl
  · show (decode_inner [97, 98, 99, 100] dst upper.decode_nibble).1 = _
    rw [decode_inner_eq_of_le [97, 98, 99, 100] dst upper.decode_nibble
      (by decide) (by simpa using hd)]
    rfl
  · show (decode_inner [97, 66, 99, 68] dst mixed.decode_nibble).1 = _
    rw [decode_inner_eq_of_le [97, 66, 99, 68] dst mixed.decode_nibble
      (by decide) (by simpa using hd)]
    rfl
  · show (decode_inner [65, 66, 67, 68] dst mixed.decode_nibble).1 = _
    rw [decode_inner_eq_of_le [65, 66, 67, 68] dst mixed.decode_nibble
      (by decide) (by simpa using hd)]
    rfl
  · show (decode_inner [97, 98, 99, 100] dst mixed.decode_nibble).1 = _
    rw [decode_inner_eq_of_le [97, 98, 99, 100] dst mixed.decode_nibble
      (by decide) (by simpa using hd)]
    rfl

/-- Witness for C5 at the concrete buffer `[0, 0]`. -/
theorem decode_case_vectors_witness :
    (mixed.decode [97, 66, 99, 68] [0, 0]).1 = Except.ok [171, 205] := by
  have h := decode_case_vectors [0, 0] (by decide)
  exact h.2.2.1

end Base16ct

namespace Base16ct

set_option maxRecDepth 100000

/-- Claim C1: round-trip — for every byte sequence `b` and sufficiently
large buffers, encoding with the lower (resp. upper) variant and
decoding with the same variant or with `mixed` returns exactly `b`. -/
theorem round_trip_all (b ebuf dst : List Nat) (hb : ∀ x ∈ b, x < 256)
    (hebuf : encoded_len b ≤ ebuf.length) (hdst : b.length ≤ dst.length) :
    (∃ e, (encode_inner b ebuf lower.encode_nibble).1 = Except.ok e ∧
      (lower.decode e dst).1 = Except.ok b ∧
      (mixed.decode e dst).1 = Except.ok b) ∧
    (∃ e, (encode_inner b ebuf upper.encode_nibble).1 = Except.ok e ∧
      (upper.decode e dst).1 = Except.ok b ∧
      (mixed.decode e dst).1 = Except.ok b) := by
  have key : ∀ (nib enc : Nat → Nat),
      (∀ x : Fin 256, decode_byte nib (enc (x.val / 16)) (enc (x.val % 16)) = x.val) →
      (decode_inner (encode_bytes enc b) dst nib).1 = Except.ok b := by
    intro nib enc hre
    have hlen : (encode_bytes enc b).length = 2 * b.length := encode_bytes_length enc b
    have he : (encode_bytes enc b).length % 2 = 0 := by omega
    have hd : (encode_bytes enc b).length / 2 ≤ dst.length := by omega
    rw [decode_inner_eq_of_le _ dst nib he hd,
      decode_pairs_encode hre b hb]
    dsimp only []
    rw [if_pos rfl]
  have henc : ∀ enc : Nat → Nat,
      (encode_inner b ebuf enc).1 = Except.ok (encode_bytes enc b) := by
    intro enc
    unfold encode_inner
    rw [if_pos hebuf]
  exact ⟨⟨encode_bytes lower.encode_nibble b, henc lower.encode_nibble,
      key lower.decode_nibble lower.encode_nibble rt_lower_lower,
      key mixed.decode_nibble lower.encode_nibble rt_mixed_lower⟩,
    ⟨encode_bytes upper.encode_nibble b, henc upper.encode_nibble,
      key upper.decode_nibble upper.encode_nibble rt_upper_upper,
      key mixed.decode_nibble upper.encode_nibble rt_mixed_upper⟩⟩

/-- Witness for C1 at the bytes `[0xAB, 0xCD]` with exact-size buffers. -/
theorem round_trip_all_witness :
    (∃ e, (encode_inner [171, 205] [0, 0, 0, 0] lower.encode_nibble).1 =
        Except.ok e ∧
      (lower.decode e [0, 0]).1 = Except.ok [171, 205] ∧
      (mixed.decode e [0, 0]).1 = Except.ok [171, 205]) ∧
    (∃ e, (encode_inner [171, 205] [0, 0, 0, 0] upper.encode_nibble).1 =
        Except.ok e ∧
      (upper.decode e [0, 0]).1 = Except.ok [171, 205] ∧
      (mixed.decode e [0, 0]).1 = Except.ok [171, 205]) :=
  round_trip_all [171, 205] [0, 0, 0, 0] [0, 0] (by decide) (by decide) (by decide)

theorem encode_loop_ops_eq : ∀ src : List Nat,
    encode_loop_ops src = (List.replicate src.length encode_pair_ops).flatten
  | [] => rfl
  | _ :: rest => by
    simp only [encode_loop_ops, List.length_cons]
    rw [encode_loop_ops_eq rest, List.replicate_succ, List.flatten_cons]

/-- Claim C9: the operation traces of both the decode engine and the
encode routine — an up-front length check followed by one fixed block
of operations per input unit, with no early exit, each `decode_nibble`
and `encode_nibble` invocation contributing its fixed constant
operation block (`nibble_ops` / `encode_nibble_ops`) — depend only on
the lengths of the input and the destination buffer, never on any byte
value. -/
theorem codec_ops_length_only (s₁ s₂ d₁ d₂ : List Nat)
    (hs : s₁.length = s₂.length) (hd : d₁.length = d₂.length) :
    decode_inner_ops s₁ d₁ = decode_inner_ops s₂ d₂ ∧
    encode_inner_ops s₁ d₁ = encode_inner_ops s₂ d₂ := by
  constructor
  · unfold decode_inner_ops
    rw [decoded_len_spec, decoded_len_spec, hs, hd]
    by_cases he : s₂.length % 2 = 0
    · rw [if_pos he]
      dsimp only []
      by_cases hdd : s₂.length / 2 ≤ d₂.length
      · rw [if_pos hdd, loop_ops_eq s₁, loop_ops_eq s₂, hs, if_pos hdd]
      · rw [if_neg hdd, if_neg hdd]
    · rw [if_neg he]
  · unfold encode_inner_ops encoded_len
    rw [hs, hd]
    by_cases hb : s₂.length * 2 ≤ d₂.length
    · rw [if_pos hb, encode_loop_ops_eq s₁, encode_loop_ops_eq s₂, hs, if_pos hb]
    · rw [if_neg hb, if_neg hb]

/-- Witness for C9: a valid input and an input full of illegal bytes of
the same length produce identical decode and encode operation traces. -/
theorem codec_ops_length_only_witness :
    decode_inner_ops [97, 98] [0, 0, 0, 0] =
      decode_inner_ops [255, 0] [7, 7, 7, 7] ∧
    encode_inner_ops [97, 98] [0, 0, 0, 0] =
      encode_inner_ops [255, 0] [7, 7, 7, 7] :=
  codec_ops_length_only [97, 98] [255, 0] [0, 0, 0, 0] [7, 7, 7, 7] rfl rfl

end Base16ct

namespace Base16ct

/-- Witness for C8: decoding the odd-length input `"abc"` fails with
`InvalidLength` and leaves the destination buffer unchanged. -/
theorem invalid_length_single_check_witness :
    (decode_inner [97, 98, 99] [0] lower.decode_nibble).1 =
      Except.error Error.InvalidLength ∧
    (decode_inner [97, 98, 99] [0] lower.decode_nibble).2 = [0] := by
  have h := invalid_length_single_check [97, 98, 99] [0] lower.decode_nibble
  have h1 : (decode_inner [97, 98, 99] [0] lower.decode_nibble).1 =
      Except.error Error.InvalidLength := h.1.mpr (Or.inl (by decide))
  exact ⟨h1, h.2 h1⟩

end Base16ct
